import Mathlib

/-!
# Verification of the qemu-wasm audio core (`audio/wasmaudio.c`)

A shallow embedding of the audio backend in `audio/wasmaudio.c`:

* the SPSC ring buffer (`ring_available_write`, `ring_available_read`,
  `ring_write`, `ring_read`);
* the global audio state and its public API (`wasm_audio_write`,
  `wasm_audio_read`, `wasm_audio_set_volume`, `wasm_audio_set_mute`,
  `wasm_audio_handle_interruption`, ...);
* the sample-format conversions of the QEMU driver glue (`wasm_write`
  converts int16 to float, `wasm_read` converts float back to int16).

Machine integers are modelled as `Nat` with explicit reduction modulo
`2^32` where the C code relies on `uint32_t` wrap-around; the cursor
masking `& (N-1)` is kept literally as `&&&`.  The C ring buffer is
specialised to `float`; samples are opaque to the buffer (only `memcpy`d),
so the buffer is embedded generically over an element type `α`.  The C
code fixes the capacity with the macro `WASM_AUDIO_RING_SIZE = 16384`
(stored into the `size` field at init); the embedding reads the capacity
from the `size` field so that properties can be stated for every
power-of-two capacity, `16384` included.
-/

/-- Ring buffer size used by `wasmaudio.c` (`WASM_AUDIO_RING_SIZE`, a power of 2). -/
def WASM_AUDIO_RING_SIZE : Nat := 16384

/-- `2^32`, the modulus of the `uint32_t` cursor arithmetic. -/
def U32 : Nat := 2 ^ 32

/-- `struct WasmAudioRingBuffer`: a backing array (modelled as a function from
indices to samples), two cursors and the capacity.  The C buffer holds `float`s;
the buffer only ever `memcpy`s them, so the element type is a parameter. -/
structure WasmAudioRingBuffer (α : Type) where
  buffer : Nat → α
  read_pos : Nat
  write_pos : Nat
  size : Nat

/-- `ring_available_write`: `(r - w - 1) & WASM_AUDIO_RING_MASK` in `uint32_t`
arithmetic, with the mask `size - 1`. -/
def ring_available_write (ring : WasmAudioRingBuffer α) : Nat :=
  ((ring.read_pos + U32 - ring.write_pos - 1) % U32) &&& (ring.size - 1)

/-- `ring_available_read`: `(w - r) & WASM_AUDIO_RING_MASK` in `uint32_t`
arithmetic, with the mask `size - 1`. -/
def ring_available_read (ring : WasmAudioRingBuffer α) : Nat :=
  ((ring.write_pos + U32 - ring.read_pos) % U32) &&& (ring.size - 1)

/-- `memcpy(buf + pos, data, data.length * sizeof(α))`: overwrite the
`data.length` slots starting at `pos` with `data`. -/
def memcpy (buf : Nat → α) (pos : Nat) (data : List α) : Nat → α :=
  fun i =>
    if h : pos ≤ i ∧ i < pos + data.length then data.get ⟨i - pos, by omega⟩
    else buf i

/-- `ring_write(ring, data, count)`: clamp `count` to the free space, copy the
accepted prefix of `data` (split in two `memcpy`s when it wraps past the end of
the array), advance the write cursor masked by `size - 1`, return the accepted
count. -/
def ring_write (ring : WasmAudioRingBuffer α) (data : List α) (count0 : Nat) :
    WasmAudioRingBuffer α × Nat :=
  let available := ring_available_write ring
  let count := if count0 > available then available else count0
  let w := ring.write_pos
  let to_end := ring.size - w
  let buf :=
    if count ≤ to_end then
      memcpy ring.buffer w (data.take count)
    else
      memcpy (memcpy ring.buffer w (data.take to_end)) 0
        ((data.drop to_end).take (count - to_end))
  ({ ring with buffer := buf, write_pos := (w + count) &&& (ring.size - 1) }, count)

/-- `ring_read(ring, data, count)`: clamp `count` to the available data, copy
out the samples starting at the read cursor (split in two `memcpy`s when the
transfer wraps), advance the read cursor masked by `size - 1`.  The C function
returns the count and fills the caller's array; the embedding returns the list
of samples copied out (whose length is that count). -/
def ring_read (ring : WasmAudioRingBuffer α) (count0 : Nat) :
    WasmAudioRingBuffer α × List α :=
  let available := ring_available_read ring
  let count := if count0 > available then available else count0
  let r := ring.read_pos
  let to_end := ring.size - r
  let out :=
    if count ≤ to_end then
      (List.range count).map (fun i => ring.buffer (r + i))
    else
      (List.range to_end).map (fun i => ring.buffer (r + i)) ++
        (List.range (count - to_end)).map (fun i => ring.buffer i)
  ({ ring with read_pos := (r + count) &&& (ring.size - 1) }, out)

/-- A freshly allocated ring buffer (`g_malloc0`: zero-filled storage, both
cursors 0) of capacity `N`; `z` is the zero sample. -/
def emptyRing (N : Nat) (z : α) : WasmAudioRingBuffer α :=
  { buffer := fun _ => z, read_pos := 0, write_pos := 0, size := N }

/-- Well-formedness maintained by the code: the capacity is `2^k` for some
`k ≤ 32` (in the C code `2^14`) and both cursors are in `[0, size)`. -/
def GoodRing (k : Nat) (rb : WasmAudioRingBuffer α) : Prop :=
  k ≤ 32 ∧ rb.size = 2 ^ k ∧ rb.read_pos < rb.size ∧ rb.write_pos < rb.size

/-- The live (written, not yet read) samples of the buffer, in FIFO order:
`available_to_read` samples starting at the read cursor, modulo the size. -/
def ringContents (rb : WasmAudioRingBuffer α) : List α :=
  (List.range (ring_available_read rb)).map
    (fun i => rb.buffer ((rb.read_pos + i) % rb.size))

section RingArith

variable {α : Type}

theorem size_pos_of_good {k : Nat} {rb : WasmAudioRingBuffer α}
    (h : GoodRing k rb) : 0 < rb.size := by
  rcases h with ⟨-, hs, -, -⟩
  rw [hs]; exact Nat.pos_pow_of_pos k (by decide)

/-- Masking by `size - 1` is reduction modulo `size` for a power-of-two size. -/
theorem mask_eq_mod {k : Nat} (hk : k ≤ 32) (x : Nat) :
    (x % U32) &&& (2 ^ k - 1) = x % 2 ^ k := by
  rw [Nat.and_pow_two_sub_one_eq_mod]
  exact Nat.mod_mod_of_dvd x (Nat.pow_dvd_pow 2 hk)

/-- The `uint32_t` computation of `ring_available_write` equals plain
modular arithmetic on the capacity. -/
theorem ring_available_write_eq {k : Nat} {rb : WasmAudioRingBuffer α}
    (h : GoodRing k rb) :
    ring_available_write rb =
      (rb.read_pos + rb.size - rb.write_pos - 1) % rb.size := by
  obtain ⟨hk, hs, hr, hw⟩ := h
  have hks : (2 : Nat) ^ k ≤ U32 := Nat.pow_le_pow_right (by decide) hk
  obtain ⟨m, hm⟩ : (2 : Nat) ^ k ∣ U32 - 2 ^ k :=
    Nat.dvd_sub' (Nat.pow_dvd_pow 2 hk) dvd_rfl
  rw [ring_available_write, hs, mask_eq_mod hk]
  have hsplit : rb.read_pos + U32 - rb.write_pos - 1 =
      rb.read_pos + 2 ^ k - rb.write_pos - 1 + 2 ^ k * m := by
    rw [hs] at hr hw; omega
  rw [hsplit, Nat.add_mul_mod_self_left]

/-- The `uint32_t` computation of `ring_available_read` equals plain
modular arithmetic on the capacity. -/
theorem ring_available_read_eq {k : Nat} {rb : WasmAudioRingBuffer α}
    (h : GoodRing k rb) :
    ring_available_read rb =
      (rb.write_pos + rb.size - rb.read_pos) % rb.size := by
  obtain ⟨hk, hs, hr, hw⟩ := h
  obtain ⟨m, hm⟩ : (2 : Nat) ^ k ∣ U32 - 2 ^ k :=
    Nat.dvd_sub' (Nat.pow_dvd_pow 2 hk) dvd_rfl
  have hks : (2 : Nat) ^ k ≤ U32 := Nat.pow_le_pow_right (by decide) hk
  rw [ring_available_read, hs, mask_eq_mod hk]
  have hsplit : rb.write_pos + U32 - rb.read_pos =
      rb.write_pos + 2 ^ k - rb.read_pos + 2 ^ k * m := by
    rw [hs] at hr hw; omega
  rw [hsplit, Nat.add_mul_mod_self_left]

/-- `(w + N - r) % N` is the unique `d < N` with `(r + d) % N = w`. -/
theorem mod_char {N r w d : Nat} (hr : r < N) (_hw : w < N) (hd : d < N)
    (h : (r + d) % N = w) : (w + N - r) % N = d := by
  rcases Nat.lt_or_ge (r + d) N with hlt | hge
  · rw [Nat.mod_eq_of_lt hlt] at h
    have h1 : w + N - r = d + N := by omega
    rw [h1, Nat.add_mod_right, Nat.mod_eq_of_lt hd]
  · have h2 : (r + d) % N = r + d - N := by
      rw [Nat.mod_eq_sub_mod hge, Nat.mod_eq_of_lt (by omega)]
    rw [h2] at h
    have h1 : w + N - r = d := by omega
    rw [h1, Nat.mod_eq_of_lt hd]

theorem avail_read_lt {k : Nat} {rb : WasmAudioRingBuffer α}
    (h : GoodRing k rb) : ring_available_read rb < rb.size := by
  rw [ring_available_read_eq h]
  exact Nat.mod_lt _ (size_pos_of_good h)

theorem avail_write_lt {k : Nat} {rb : WasmAudioRingBuffer α}
    (h : GoodRing k rb) : ring_available_write rb < rb.size := by
  rw [ring_available_write_eq h]
  exact Nat.mod_lt _ (size_pos_of_good h)

/-- Moving the read cursor forward by `available_to_read` lands on the write
cursor. -/
theorem read_plus_avail {k : Nat} {rb : WasmAudioRingBuffer α}
    (h : GoodRing k rb) :
    (rb.read_pos + ring_available_read rb) % rb.size = rb.write_pos := by
  obtain ⟨hk, hs, hr, hw⟩ := h
  have hN : 0 < rb.size := size_pos_of_good ⟨hk, hs, hr, hw⟩
  rw [ring_available_read_eq ⟨hk, hs, hr, hw⟩]
  rcases le_or_lt rb.read_pos rb.write_pos with hle | hlt
  · have h1 : (rb.write_pos + rb.size - rb.read_pos) % rb.size =
        rb.write_pos - rb.read_pos := by
      rw [Nat.mod_eq_sub_mod (by omega)]
      have : rb.write_pos + rb.size - rb.read_pos - rb.size =
          rb.write_pos - rb.read_pos := by omega
      rw [this, Nat.mod_eq_of_lt (by omega)]
    rw [h1]
    have : rb.read_pos + (rb.write_pos - rb.read_pos) = rb.write_pos := by omega
    rw [this, Nat.mod_eq_of_lt hw]
  · have h1 : (rb.write_pos + rb.size - rb.read_pos) % rb.size =
        rb.write_pos + rb.size - rb.read_pos := Nat.mod_eq_of_lt (by omega)
    rw [h1]
    have : rb.read_pos + (rb.write_pos + rb.size - rb.read_pos) =
        rb.write_pos + rb.size := by omega
    rw [this, Nat.add_mod_right, Nat.mod_eq_of_lt hw]

/-- One slot is always kept empty: the free space and the live count always
sum to `size - 1`. -/
theorem avail_sum {k : Nat} {rb : WasmAudioRingBuffer α} (h : GoodRing k rb) :
    ring_available_read rb + ring_available_write rb = rb.size - 1 := by
  obtain ⟨hk, hs, hr, hw⟩ := h
  rw [ring_available_read_eq ⟨hk, hs, hr, hw⟩,
    ring_available_write_eq ⟨hk, hs, hr, hw⟩]
  rcases le_or_lt rb.read_pos rb.write_pos with hle | hlt
  · have h1 : (rb.write_pos + rb.size - rb.read_pos) % rb.size =
        rb.write_pos - rb.read_pos := by
      rw [Nat.mod_eq_sub_mod (by omega)]
      have : rb.write_pos + rb.size - rb.read_pos - rb.size =
          rb.write_pos - rb.read_pos := by omega
      rw [this, Nat.mod_eq_of_lt (by omega)]
    have h2 : (rb.read_pos + rb.size - rb.write_pos - 1) % rb.size =
        rb.read_pos + rb.size - rb.write_pos - 1 :=
      Nat.mod_eq_of_lt (by omega)
    rw [h1, h2]; omega
  · have h1 : (rb.write_pos + rb.size - rb.read_pos) % rb.size =
        rb.write_pos + rb.size - rb.read_pos := Nat.mod_eq_of_lt (by omega)
    have h2 : (rb.read_pos + rb.size - rb.write_pos - 1) % rb.size =
        rb.read_pos - rb.write_pos - 1 := by
      rw [Nat.mod_eq_sub_mod (by omega)]
      have : rb.read_pos + rb.size - rb.write_pos - 1 - rb.size =
          rb.read_pos - rb.write_pos - 1 := by omega
      rw [this, Nat.mod_eq_of_lt (by omega)]
    rw [h1, h2]; omega

/-- Indices below the size are injective modulo the size. -/
theorem mod_inj {N r i j : Nat} (hi : i < N) (hj : j < N)
    (h : (r + i) % N = (r + j) % N) : i = j := by
  have h1 : i ≡ j [MOD N] := Nat.ModEq.add_left_cancel' r h
  have h2 : i % N = j % N := h1
  rwa [Nat.mod_eq_of_lt hi, Nat.mod_eq_of_lt hj] at h2

end RingArith

section RingStep

variable {α : Type}

theorem memcpy_out (buf : Nat → α) (pos : Nat) (data : List α) (i : Nat)
    (h : i < pos ∨ pos + data.length ≤ i) : memcpy buf pos data i = buf i := by
  unfold memcpy
  rw [dif_neg (by omega)]

theorem memcpy_in (buf : Nat → α) (pos : Nat) (data : List α) (j : Nat)
    (hj : j < data.length) :
    memcpy buf pos data (pos + j) = data.get ⟨j, hj⟩ := by
  unfold memcpy
  rw [dif_pos ⟨by omega, by omega⟩]
  simp only [Nat.add_sub_cancel_left]

theorem ring_write_count (rb : WasmAudioRingBuffer α) (data : List α) (c : Nat) :
    (ring_write rb data c).2 = min c (ring_available_write rb) := by
  have hmin : (if c > ring_available_write rb then ring_available_write rb else c) =
      min c (ring_available_write rb) := by split <;> omega
  simp only [ring_write, hmin]

theorem ring_write_read_pos (rb : WasmAudioRingBuffer α) (data : List α) (c : Nat) :
    (ring_write rb data c).1.read_pos = rb.read_pos := rfl

theorem ring_write_size (rb : WasmAudioRingBuffer α) (data : List α) (c : Nat) :
    (ring_write rb data c).1.size = rb.size := rfl

theorem ring_write_buffer (rb : WasmAudioRingBuffer α) (data : List α) (c : Nat) :
    (ring_write rb data c).1.buffer =
      if min c (ring_available_write rb) ≤ rb.size - rb.write_pos then
        memcpy rb.buffer rb.write_pos (data.take (min c (ring_available_write rb)))
      else
        memcpy (memcpy rb.buffer rb.write_pos (data.take (rb.size - rb.write_pos))) 0
          ((data.drop (rb.size - rb.write_pos)).take
            (min c (ring_available_write rb) - (rb.size - rb.write_pos))) := by
  have hmin : (if c > ring_available_write rb then ring_available_write rb else c) =
      min c (ring_available_write rb) := by split <;> omega
  simp only [ring_write, hmin]

theorem ring_write_write_pos {k : Nat} {rb : WasmAudioRingBuffer α}
    (h : GoodRing k rb) (data : List α) (c : Nat) :
    (ring_write rb data c).1.write_pos =
      (rb.write_pos + min c (ring_available_write rb)) % rb.size := by
  have hmin : (if c > ring_available_write rb then ring_available_write rb else c) =
      min c (ring_available_write rb) := by split <;> omega
  show (rb.write_pos + (if c > ring_available_write rb then ring_available_write rb
      else c)) &&& (rb.size - 1) = _
  rw [hmin, h.2.1, Nat.and_pow_two_sub_one_eq_mod]

theorem ring_write_good {k : Nat} {rb : WasmAudioRingBuffer α}
    (h : GoodRing k rb) (data : List α) (c : Nat) :
    GoodRing k (ring_write rb data c).1 := by
  obtain ⟨hk, hs, hr, hw⟩ := h
  refine ⟨hk, ?_, ?_, ?_⟩
  · rw [ring_write_size, hs]
  · rw [ring_write_read_pos, ring_write_size]; exact hr
  · rw [ring_write_write_pos ⟨hk, hs, hr, hw⟩, ring_write_size]
    exact Nat.mod_lt _ (size_pos_of_good ⟨hk, hs, hr, hw⟩)

/-- Slots outside the (modular) region written by `ring_write` are untouched. -/
theorem ring_write_buffer_old {k : Nat} {rb : WasmAudioRingBuffer α}
    (h : GoodRing k rb) (data : List α) (c : Nat)
    (hlen : c ≤ data.length) (p : Nat) (hp : p < rb.size)
    (hout : ∀ j < min c (ring_available_write rb),
      p ≠ (rb.write_pos + j) % rb.size) :
    (ring_write rb data c).1.buffer p = rb.buffer p := by
  have hN : 0 < rb.size := size_pos_of_good h
  have hw : rb.write_pos < rb.size := h.2.2.2
  set N := rb.size with hNdef
  set w := rb.write_pos with hwdef
  set a := min c (ring_available_write rb) with hadef
  have hav : ring_available_write rb < N := avail_write_lt h
  have ha : a ≤ data.length := le_trans (Nat.min_le_left _ _) hlen
  have haN : a < N := lt_of_le_of_lt (Nat.min_le_right _ _) hav
  rw [ring_write_buffer]
  by_cases hsplit : a ≤ N - w
  · rw [if_pos hsplit]
    apply memcpy_out
    rw [List.length_take, Nat.min_eq_left ha]
    by_contra hcon
    push_neg at hcon
    exact hout (p - w) (by omega)
      (by rw [Nat.mod_eq_of_lt (by omega)]; omega)
  · rw [if_neg hsplit]
    push_neg at hsplit
    have hw1 : 1 ≤ w := by omega
    have hlen2 : ((data.drop (N - w)).take (a - (N - w))).length = a - (N - w) := by
      rw [List.length_take, List.length_drop]
      omega
    rw [memcpy_out _ _ _ _ (by
      right
      rw [hlen2]
      by_contra hcon
      push_neg at hcon
      refine hout ((N - w) + p) (by omega) ?_
      have : w + ((N - w) + p) = N + p := by omega
      rw [this, Nat.add_mod_left, Nat.mod_eq_of_lt hp])]
    apply memcpy_out
    rw [List.length_take, Nat.min_eq_left (by omega)]
    by_contra hcon
    push_neg at hcon
    exact hout (p - w) (by omega)
      (by rw [Nat.mod_eq_of_lt (by omega)]; omega)

/-- The (modular) region written by `ring_write` holds the accepted prefix of
`data`. -/
theorem ring_write_buffer_new {k : Nat} {rb : WasmAudioRingBuffer α}
    (h : GoodRing k rb) (data : List α) (c : Nat)
    (hlen : c ≤ data.length) (j : Nat)
    (hj : j < min c (ring_available_write rb)) :
    (ring_write rb data c).1.buffer ((rb.write_pos + j) % rb.size) =
      data.get ⟨j, by omega⟩ := by
  have hN : 0 < rb.size := size_pos_of_good h
  have hw : rb.write_pos < rb.size := h.2.2.2
  set N := rb.size with hNdef
  set w := rb.write_pos with hwdef
  set a := min c (ring_available_write rb) with hadef
  have hav : ring_available_write rb < N := avail_write_lt h
  have ha : a ≤ data.length := le_trans (Nat.min_le_left _ _) hlen
  have haN : a < N := lt_of_le_of_lt (Nat.min_le_right _ _) hav
  rw [ring_write_buffer]
  by_cases hsplit : a ≤ N - w
  · rw [if_pos hsplit]
    have hlt : w + j < N := by omega
    rw [Nat.mod_eq_of_lt hlt]
    have htl : j < (data.take a).length := by
      rw [List.length_take]; omega
    rw [memcpy_in _ _ _ j htl, List.get_eq_getElem, List.get_eq_getElem,
      List.getElem_take]
  · rw [if_neg hsplit]
    push_neg at hsplit
    have hw1 : 1 ≤ w := by omega
    have hlen2 : ((data.drop (N - w)).take (a - (N - w))).length = a - (N - w) := by
      rw [List.length_take, List.length_drop]
      omega
    by_cases hjend : j < N - w
    · have hlt : w + j < N := by omega
      rw [Nat.mod_eq_of_lt hlt]
      rw [memcpy_out _ _ _ _ (by right; rw [hlen2]; omega)]
      have htl : j < (data.take (N - w)).length := by
        rw [List.length_take]; omega
      rw [memcpy_in _ _ _ j htl, List.get_eq_getElem, List.get_eq_getElem,
        List.getElem_take]
    · push_neg at hjend
      have hmod : (w + j) % N = j - (N - w) := by
        have : w + j = N + (j - (N - w)) := by omega
        rw [this, Nat.add_mod_left, Nat.mod_eq_of_lt (by omega)]
      rw [hmod]
      have htl : j - (N - w) < ((data.drop (N - w)).take (a - (N - w))).length := by
        rw [hlen2]; omega
      have hzero : j - (N - w) = 0 + (j - (N - w)) := by omega
      rw [hzero, memcpy_in _ _ _ _ (by rw [hlen2]; omega)]
      rw [List.get_eq_getElem, List.get_eq_getElem]
      rw [List.getElem_take, List.getElem_drop]
      have hidx : N - w + (j - (N - w)) = j := by omega
      simp only [hidx]

end RingStep

section RingStep2

variable {α : Type}

/-- A `ring_write` grows the live count by exactly the accepted count. -/
theorem ring_write_avail_read {k : Nat} {rb : WasmAudioRingBuffer α}
    (h : GoodRing k rb) (data : List α) (c : Nat) :
    ring_available_read (ring_write rb data c).1 =
      ring_available_read rb + min c (ring_available_write rb) := by
  have hN : 0 < rb.size := size_pos_of_good h
  have hr : rb.read_pos < rb.size := h.2.2.1
  set a := min c (ring_available_write rb) with hadef
  have hsum := avail_sum h
  have hbound : ring_available_read rb + a < rb.size := by
    have := Nat.min_le_right c (ring_available_write rb)
    omega
  have hg := ring_write_good h data c
  have h1 : ring_available_read (ring_write rb data c).1 =
      ((ring_write rb data c).1.write_pos + rb.size - rb.read_pos) % rb.size := by
    rw [ring_available_read_eq hg, ring_write_size, ring_write_read_pos]
  rw [h1, ring_write_write_pos h data c]
  exact mod_char hr (Nat.mod_lt _ hN) hbound
    (by rw [← Nat.add_assoc, ← Nat.mod_add_mod, read_plus_avail h])

/-- Length of the live contents is `ring_available_read`. -/
theorem ringContents_length (rb : WasmAudioRingBuffer α) :
    (ringContents rb).length = ring_available_read rb := by
  simp only [ringContents, List.length_map, List.length_range]

theorem ringContents_getElem (rb : WasmAudioRingBuffer α) (i : Nat)
    (hi : i < (ringContents rb).length) :
    (ringContents rb)[i] = rb.buffer ((rb.read_pos + i) % rb.size) := by
  simp only [ringContents, List.getElem_map, List.getElem_range]

/-- A `ring_write` appends the accepted prefix of `data` to the live contents:
the FIFO write contract. -/
theorem ring_write_contents {k : Nat} {rb : WasmAudioRingBuffer α}
    (h : GoodRing k rb) (data : List α) (c : Nat) (hlen : c ≤ data.length) :
    ringContents (ring_write rb data c).1 =
      ringContents rb ++ data.take (min c (ring_available_write rb)) := by
  have hN : 0 < rb.size := size_pos_of_good h
  have hr : rb.read_pos < rb.size := h.2.2.1
  have ha : min c (ring_available_write rb) ≤ data.length :=
    le_trans (Nat.min_le_left _ _) hlen
  have hsum := avail_sum h
  have hbound : ring_available_read rb + min c (ring_available_write rb)
      < rb.size := by
    have := Nat.min_le_right c (ring_available_write rb)
    omega
  apply List.ext_getElem
  · rw [ringContents_length, ring_write_avail_read h data c,
      List.length_append, ringContents_length, List.length_take,
      Nat.min_eq_left ha]
  · intro i h1 h2
    have hi : i < ring_available_read rb + min c (ring_available_write rb) := by
      rw [ringContents_length, ring_write_avail_read h data c] at h1
      exact h1
    rw [ringContents_getElem _ i h1, ring_write_read_pos, ring_write_size]
    by_cases hcase : i < ring_available_read rb
    · rw [List.getElem_append_left (by rw [ringContents_length]; exact hcase)]
      rw [ringContents_getElem _ i (by rw [ringContents_length]; exact hcase)]
      apply ring_write_buffer_old h data c hlen _ (Nat.mod_lt _ hN)
      intro j hj heq
      have hj2 : ring_available_read rb + j < rb.size := by omega
      have heq2 : (rb.read_pos + (ring_available_read rb + j)) % rb.size =
          (rb.write_pos + j) % rb.size := by
        rw [← Nat.add_assoc, ← Nat.mod_add_mod, read_plus_avail h]
      rw [← heq2] at heq
      have := mod_inj (by omega : i < rb.size) hj2 heq
      omega
    · push_neg at hcase
      have hj : i - ring_available_read rb < min c (ring_available_write rb) := by
        omega
      have heq2 : (rb.read_pos + i) % rb.size =
          (rb.write_pos + (i - ring_available_read rb)) % rb.size := by
        have hspliti : rb.read_pos + i =
            rb.read_pos + ring_available_read rb + (i - ring_available_read rb) := by
          omega
        rw [hspliti, ← Nat.mod_add_mod, read_plus_avail h]
      rw [heq2, ring_write_buffer_new h data c hlen _ hj,
        List.getElem_append_right (by rw [ringContents_length]; exact hcase),
        List.get_eq_getElem]
      simp only [List.getElem_take, ringContents_length]

theorem ring_read_count (rb : WasmAudioRingBuffer α) (c : Nat) :
    (ring_read rb c).2.length = min c (ring_available_read rb) := by
  have hmin : (if c > ring_available_read rb then ring_available_read rb else c) =
      min c (ring_available_read rb) := by split <;> omega
  simp only [ring_read, hmin]
  split
  · simp
  · simp only [List.length_append, List.length_map, List.length_range]
    omega

theorem ring_read_write_pos (rb : WasmAudioRingBuffer α) (c : Nat) :
    (ring_read rb c).1.write_pos = rb.write_pos := rfl

theorem ring_read_size (rb : WasmAudioRingBuffer α) (c : Nat) :
    (ring_read rb c).1.size = rb.size := rfl

theorem ring_read_buffer (rb : WasmAudioRingBuffer α) (c : Nat) :
    (ring_read rb c).1.buffer = rb.buffer := rfl

theorem ring_read_read_pos {k : Nat} {rb : WasmAudioRingBuffer α}
    (h : GoodRing k rb) (c : Nat) :
    (ring_read rb c).1.read_pos =
      (rb.read_pos + min c (ring_available_read rb)) % rb.size := by
  have hmin : (if c > ring_available_read rb then ring_available_read rb else c) =
      min c (ring_available_read rb) := by split <;> omega
  show (rb.read_pos + (if c > ring_available_read rb then ring_available_read rb
      else c)) &&& (rb.size - 1) = _
  rw [hmin, h.2.1, Nat.and_pow_two_sub_one_eq_mod]

theorem ring_read_good {k : Nat} {rb : WasmAudioRingBuffer α}
    (h : GoodRing k rb) (c : Nat) : GoodRing k (ring_read rb c).1 := by
  obtain ⟨hk, hs, hr, hw⟩ := h
  refine ⟨hk, ?_, ?_, ?_⟩
  · rw [ring_read_size, hs]
  · rw [ring_read_read_pos ⟨hk, hs, hr, hw⟩, ring_read_size]
    exact Nat.mod_lt _ (size_pos_of_good ⟨hk, hs, hr, hw⟩)
  · rw [ring_read_write_pos, ring_read_size]; exact hw

/-- A `ring_read` shrinks the live count by exactly the returned count. -/
theorem ring_read_avail_read {k : Nat} {rb : WasmAudioRingBuffer α}
    (h : GoodRing k rb) (c : Nat) :
    ring_available_read (ring_read rb c).1 =
      ring_available_read rb - min c (ring_available_read rb) := by
  have hN : 0 < rb.size := size_pos_of_good h
  have hw : rb.write_pos < rb.size := h.2.2.2
  set a := min c (ring_available_read rb) with hadef
  have har : ring_available_read rb < rb.size := avail_read_lt h
  have hg := ring_read_good h c
  have h1 : ring_available_read (ring_read rb c).1 =
      (rb.write_pos + rb.size - (ring_read rb c).1.read_pos) % rb.size := by
    rw [ring_available_read_eq hg, ring_read_size, ring_read_write_pos]
  rw [h1, ring_read_read_pos h c]
  apply mod_char (Nat.mod_lt _ hN) hw (by omega)
  rw [Nat.mod_add_mod]
  have haa : rb.read_pos + a + (ring_available_read rb - a) =
      rb.read_pos + ring_available_read rb := by
    have := Nat.min_le_right c (ring_available_read rb)
    omega
  rw [haa, read_plus_avail h]

end RingStep2

section RingStep3

variable {α : Type}

theorem ring_read_out (rb : WasmAudioRingBuffer α) (c : Nat) :
    (ring_read rb c).2 =
      if min c (ring_available_read rb) ≤ rb.size - rb.read_pos then
        (List.range (min c (ring_available_read rb))).map
          (fun i => rb.buffer (rb.read_pos + i))
      else
        (List.range (rb.size - rb.read_pos)).map
            (fun i => rb.buffer (rb.read_pos + i)) ++
          (List.range (min c (ring_available_read rb) - (rb.size - rb.read_pos))).map
            (fun i => rb.buffer i) := by
  have hmin : (if c > ring_available_read rb then ring_available_read rb else c) =
      min c (ring_available_read rb) := by split <;> omega
  simp only [ring_read, hmin]

/-- A `ring_read` returns exactly the first `min count available` live samples,
in FIFO order. -/
theorem ring_read_out_spec {k : Nat} {rb : WasmAudioRingBuffer α}
    (h : GoodRing k rb) (c : Nat) :
    (ring_read rb c).2 = (ringContents rb).take (min c (ring_available_read rb)) := by
  have hN : 0 < rb.size := size_pos_of_good h
  have hr : rb.read_pos < rb.size := h.2.2.1
  have har : ring_available_read rb < rb.size := avail_read_lt h
  have hma : min c (ring_available_read rb) ≤ ring_available_read rb :=
    Nat.min_le_right _ _
  apply List.ext_getElem
  · rw [ring_read_count, List.length_take, ringContents_length,
      Nat.min_eq_left hma]
  · intro i h1 h2
    have hi : i < min c (ring_available_read rb) := by
      rwa [ring_read_count] at h1
    have hict : i < (ringContents rb).length := by
      rw [ringContents_length]; omega
    rw [List.getElem_take, ringContents_getElem _ i hict,
      List.getElem_of_eq (ring_read_out rb c) h1]
    by_cases hsplit : min c (ring_available_read rb) ≤ rb.size - rb.read_pos
    · rw [List.getElem_of_eq (if_pos hsplit)]
      rw [List.getElem_map, List.getElem_range]
      rw [Nat.mod_eq_of_lt (by omega)]
    · rw [List.getElem_of_eq (if_neg hsplit)]
      push_neg at hsplit
      by_cases hcase : i < rb.size - rb.read_pos
      · rw [List.getElem_append_left (by
          simp only [List.length_map, List.length_range]; exact hcase)]
        rw [List.getElem_map, List.getElem_range, Nat.mod_eq_of_lt (by omega)]
      · push_neg at hcase
        rw [List.getElem_append_right (by
          simp only [List.length_map, List.length_range]; exact hcase)]
        rw [List.getElem_map, List.getElem_range]
        simp only [List.length_map, List.length_range]
        have hmod : (rb.read_pos + i) % rb.size = i - (rb.size - rb.read_pos) := by
          have hsp : rb.read_pos + i = rb.size + (i - (rb.size - rb.read_pos)) := by
            omega
          rw [hsp, Nat.add_mod_left, Nat.mod_eq_of_lt (by omega)]
        rw [hmod]

/-- A `ring_read` drops exactly the returned samples from the live contents:
the FIFO read contract. -/
theorem ring_read_contents {k : Nat} {rb : WasmAudioRingBuffer α}
    (h : GoodRing k rb) (c : Nat) :
    ringContents (ring_read rb c).1 =
      (ringContents rb).drop (min c (ring_available_read rb)) := by
  have hN : 0 < rb.size := size_pos_of_good h
  have hma : min c (ring_available_read rb) ≤ ring_available_read rb :=
    Nat.min_le_right _ _
  apply List.ext_getElem
  · rw [ringContents_length, ring_read_avail_read h c, List.length_drop,
      ringContents_length]
  · intro i h1 h2
    have hi : i < ring_available_read rb - min c (ring_available_read rb) := by
      rwa [ringContents_length, ring_read_avail_read h c] at h1
    rw [ringContents_getElem _ i h1, ring_read_size, ring_read_buffer,
      ring_read_read_pos h c, List.getElem_drop,
      ringContents_getElem _ _ (by rw [ringContents_length]; omega)]
    rw [Nat.mod_add_mod]
    have hsp : rb.read_pos + min c (ring_available_read rb) + i =
        rb.read_pos + (min c (ring_available_read rb) + i) := by omega
    rw [hsp]

end RingStep3

/-! ## Traces of interleaved producer/consumer calls -/

/-- One producer (`ring_write`) or consumer (`ring_read`) call.  A `write`
passes the whole list, as the C caller passes `data` and `count =` number of
samples at `data`. -/
inductive RingOp (α : Type) where
  | write (data : List α)
  | read (count : Nat)

/-- Run a sequence of interleaved `ring_write`/`ring_read` calls; result:
the final buffer state, the concatenation of all *accepted* written samples,
and the concatenation of all samples returned by the reads. -/
def runTrace {α : Type} (rb : WasmAudioRingBuffer α) :
    List (RingOp α) → WasmAudioRingBuffer α × List α × List α
  | [] => (rb, [], [])
  | .write data :: rest =>
      let res := ring_write rb data data.length
      let r2 := runTrace res.1 rest
      (r2.1, data.take res.2 ++ r2.2.1, r2.2.2)
  | .read count :: rest =>
      let res := ring_read rb count
      let r2 := runTrace res.1 rest
      (r2.1, r2.2.1, res.2 ++ r2.2.2)

/-- Trace invariant: the samples already read, followed by the samples still
live in the buffer, are exactly the old live samples followed by all accepted
written samples. -/
theorem runTrace_invariant {α : Type} {k : Nat} {rb : WasmAudioRingBuffer α}
    (h : GoodRing k rb) (ops : List (RingOp α)) :
    GoodRing k (runTrace rb ops).1 ∧
    (runTrace rb ops).2.2 ++ ringContents (runTrace rb ops).1 =
      ringContents rb ++ (runTrace rb ops).2.1 := by
  induction ops generalizing rb with
  | nil => exact ⟨h, by simp [runTrace]⟩
  | cons op rest ih =>
    cases op with
    | write data =>
      have hg := ring_write_good h data data.length
      obtain ⟨hg2, heq⟩ := ih hg
      refine ⟨by simpa [runTrace] using hg2, ?_⟩
      simp only [runTrace]
      rw [heq, ring_write_contents h data data.length le_rfl,
        ring_write_count, List.append_assoc]
    | read count =>
      have hg := ring_read_good h count
      obtain ⟨hg2, heq⟩ := ih hg
      refine ⟨by simpa [runTrace] using hg2, ?_⟩
      simp only [runTrace]
      rw [List.append_assoc, heq, ← List.append_assoc,
        ring_read_contents h count, ring_read_out_spec h count,
        List.take_append_drop]

theorem ring_available_read_empty {α : Type} (N : Nat) (z : α) :
    ring_available_read (emptyRing N z) = 0 := by
  simp [ring_available_read, emptyRing, U32]

theorem ringContents_empty {α : Type} (N : Nat) (z : α) :
    ringContents (emptyRing N z) = [] := by
  rw [ringContents, ring_available_read_empty, List.range_zero, List.map_nil]

theorem goodRing_empty {α : Type} (k : Nat) (hk : k ≤ 32) (z : α) :
    GoodRing k (emptyRing (2 ^ k) z) :=
  ⟨hk, rfl, Nat.pos_pow_of_pos k (by decide), Nat.pos_pow_of_pos k (by decide)⟩

/-- C1.  For every finite sequence of interleaved `ring_write`/`ring_read`
calls on an initially empty ring buffer (any power-of-two capacity, arbitrary
chunk sizes) the concatenation of all samples returned by the reads is a
prefix of the concatenation of all samples accepted by the writes: reads
never return more samples than were accepted, and they return exactly the
accepted values in write (FIFO) order. -/
theorem ringbuffer_fifo {α : Type} (k : Nat) (hk : k ≤ 32) (z : α)
    (ops : List (RingOp α)) :
    (runTrace (emptyRing (2 ^ k) z) ops).2.2 <+:
      (runTrace (emptyRing (2 ^ k) z) ops).2.1 ∧
    (runTrace (emptyRing (2 ^ k) z) ops).2.2.length ≤
      (runTrace (emptyRing (2 ^ k) z) ops).2.1.length := by
  obtain ⟨-, heq⟩ := runTrace_invariant (goodRing_empty k hk z) ops
  rw [ringContents_empty, List.nil_append] at heq
  refine ⟨⟨ringContents (runTrace (emptyRing (2 ^ k) z) ops).1, heq⟩, ?_⟩
  exact List.IsPrefix.length_le ⟨_, heq⟩

/-- Witness for C1 at capacity `2^3` and a concrete trace. -/
theorem ringbuffer_fifo_witness :
    3 ≤ 32 ∧
    ((runTrace (emptyRing (2 ^ 3) (0 : Int))
        [.write [1, 2, 3], .read 2, .write [4, 5, 6, 7, 8, 9], .read 5]).2.2 <+:
      (runTrace (emptyRing (2 ^ 3) (0 : Int))
        [.write [1, 2, 3], .read 2, .write [4, 5, 6, 7, 8, 9], .read 5]).2.1 ∧
    (runTrace (emptyRing (2 ^ 3) (0 : Int))
        [.write [1, 2, 3], .read 2, .write [4, 5, 6, 7, 8, 9], .read 5]).2.2.length ≤
      (runTrace (emptyRing (2 ^ 3) (0 : Int))
        [.write [1, 2, 3], .read 2, .write [4, 5, 6, 7, 8, 9], .read 5]).2.1.length) :=
  ⟨by decide, ringbuffer_fifo 3 (by decide) 0 _⟩

/-! ## Reachable ring-buffer states -/

/-- States reachable from the empty buffer of capacity `N` by interleaved
`ring_write`/`ring_read` calls, together with the running totals of samples
accepted by writes (`tw`) and returned by reads (`tr`). -/
inductive Reach {α : Type} (N : Nat) (z : α) :
    WasmAudioRingBuffer α → Nat → Nat → Prop where
  | init : Reach N z (emptyRing N z) 0 0
  | wstep {rb : WasmAudioRingBuffer α} {tw tr : Nat} (data : List α) (c : Nat) :
      Reach N z rb tw tr →
      Reach N z (ring_write rb data c).1 (tw + (ring_write rb data c).2) tr
  | rstep {rb : WasmAudioRingBuffer α} {tw tr : Nat} (c : Nat) :
      Reach N z rb tw tr →
      Reach N z (ring_read rb c).1 tw (tr + (ring_read rb c).2.length)

theorem reach_good_and_count {α : Type} {k : Nat} (hk : k ≤ 32) {z : α}
    {rb : WasmAudioRingBuffer α} {tw tr : Nat}
    (h : Reach (2 ^ k) z rb tw tr) :
    GoodRing k rb ∧ tr ≤ tw ∧ ring_available_read rb = tw - tr := by
  induction h with
  | init =>
    exact ⟨goodRing_empty k hk z, le_rfl, by rw [ring_available_read_empty]⟩
  | wstep data c hre ih =>
    obtain ⟨hg, hle, hcount⟩ := ih
    refine ⟨ring_write_good hg data c, by omega, ?_⟩
    rw [ring_write_avail_read hg data c, ring_write_count, hcount]
    omega
  | rstep c hre ih =>
    obtain ⟨hg, hle, hcount⟩ := ih
    refine ⟨ring_read_good hg c, ?_, ?_⟩
    · rw [ring_read_count]
      omega
    · rw [ring_read_avail_read hg c, ring_read_count, hcount]
      omega

/-- C2.  In every ring-buffer state reachable from the empty buffer of
power-of-two capacity `N = 2^k` by `ring_write`/`ring_read` calls, the number
of unread live samples (total accepted by writes minus total returned by
reads) equals `(write_pos - read_pos) & (N-1)` — the `uint32_t` masked cursor
difference that `ring_available_read` computes — this count never exceeds
`N - 1`, and `ring_available_write` returns `(N - 1)` minus that count. -/
theorem ring_invariant {α : Type} (k : Nat) (hk : k ≤ 32) (z : α)
    {rb : WasmAudioRingBuffer α} {tw tr : Nat} (h : Reach (2 ^ k) z rb tw tr) :
    tr ≤ tw ∧
    tw - tr = ((rb.write_pos + U32 - rb.read_pos) % U32) &&& (2 ^ k - 1) ∧
    tw - tr = ring_available_read rb ∧
    ring_available_read rb ≤ 2 ^ k - 1 ∧
    ring_available_write rb = (2 ^ k - 1) - ring_available_read rb := by
  obtain ⟨hg, hle, hcount⟩ := reach_good_and_count hk h
  have hsum := avail_sum hg
  have hlt := avail_read_lt hg
  rw [hg.2.1] at hsum hlt
  refine ⟨hle, ?_, hcount.symm, by omega, by omega⟩
  have hdef : ring_available_read rb =
      ((rb.write_pos + U32 - rb.read_pos) % U32) &&& (2 ^ k - 1) := by
    rw [← hg.2.1]; rfl
  rw [← hdef]
  exact hcount.symm

/-- Witness for C2: a concrete reachable state (capacity 8, one write of 3
samples, one read of 1). -/
theorem ring_invariant_witness :
    3 ≤ 32 ∧
    (let st := (ring_read (ring_write (emptyRing (2 ^ 3) (0 : Int))
        [10, 20, 30] 3).1 1)
     let rb := st.1
     let tw := 0 + (ring_write (emptyRing (2 ^ 3) (0 : Int)) [10, 20, 30] 3).2
     let tr := 0 + st.2.length
     tr ≤ tw ∧
     tw - tr = ((rb.write_pos + U32 - rb.read_pos) % U32) &&& (2 ^ 3 - 1) ∧
     tw - tr = ring_available_read rb ∧
     ring_available_read rb ≤ 2 ^ 3 - 1 ∧
     ring_available_write rb = (2 ^ 3 - 1) - ring_available_read rb) :=
  ⟨by decide, ring_invariant 3 (by decide) (0 : Int)
    (Reach.rstep 1 (Reach.wstep [10, 20, 30] 3 Reach.init))⟩

/-! ## Full-buffer behaviour and the capacity-8 scenario -/

@[ext]
theorem WasmAudioRingBuffer.ext {α : Type} {a b : WasmAudioRingBuffer α}
    (h1 : a.buffer = b.buffer) (h2 : a.read_pos = b.read_pos)
    (h3 : a.write_pos = b.write_pos) (h4 : a.size = b.size) : a = b := by
  cases a; cases b; cases h1; cases h2; cases h3; cases h4; rfl

/-- A `ring_write` against a full buffer accepts nothing and leaves the
buffer completely unchanged. -/
theorem ring_write_full {α : Type} {k : Nat} {rb : WasmAudioRingBuffer α}
    (h : GoodRing k rb) (data : List α) (count : Nat)
    (hav : ring_available_write rb = 0) :
    (ring_write rb data count).2 = 0 ∧ (ring_write rb data count).1 = rb := by
  refine ⟨by rw [ring_write_count, hav, Nat.min_zero], ?_⟩
  apply WasmAudioRingBuffer.ext
  · rw [ring_write_buffer, hav, Nat.min_zero, if_pos (Nat.zero_le _)]
    funext i
    apply memcpy_out
    simp only [List.take_zero, List.length_nil]
    omega
  · exact ring_write_read_pos rb data count
  · rw [ring_write_write_pos h, hav, Nat.min_zero, Nat.add_zero,
      Nat.mod_eq_of_lt h.2.2.2]
  · exact ring_write_size rb data count

/-- Writing `N - 1` samples into the empty buffer of capacity `N = 2^k`
fills it: no free slot remains. -/
theorem write_fill_empty {α : Type} (k : Nat) (hk : k ≤ 32) (z : α)
    (data : List α) (_hlen : 2 ^ k - 1 ≤ data.length) :
    ring_available_write
      (ring_write (emptyRing (2 ^ k) z) data (2 ^ k - 1)).1 = 0 := by
  have hg := goodRing_empty k hk z
  have hsum := avail_sum hg
  have har := ring_available_read_empty (2 ^ k) z
  have hg2 := ring_write_good hg data (2 ^ k - 1)
  have hsum2 := avail_sum hg2
  have h2 := ring_write_avail_read hg data (2 ^ k - 1)
  have hse : (emptyRing (2 ^ k) z).size = 2 ^ k := rfl
  rw [hse] at hsum
  rw [ring_write_size, hse] at hsum2
  omega

/-- The concrete capacity-8 scenario states. -/
def scen0 : WasmAudioRingBuffer Int := emptyRing 8 0

def scen1 : WasmAudioRingBuffer Int × Nat := ring_write scen0 [1, 2, 3, 4, 5, 6, 7] 7

def scen2 : WasmAudioRingBuffer Int × Nat := ring_write scen1.1 [8, 9] 2

def scen3 : WasmAudioRingBuffer Int × List Int := ring_read scen2.1 4

def scen4 : WasmAudioRingBuffer Int × Nat := ring_write scen3.1 [8, 9] 2

/-- C3.  Capacity-8 scenario: writing `[1..7]` into the empty buffer returns
7; an immediate write of `[8,9]` returns 0; a read of 4 samples returns
`[1,2,3,4]` and frees 4 slots; writing `[8,9]` then returns 2.  In general,
once the free space is 0 — as after writing `N-1` samples into an empty
buffer of capacity `N = 2^k` — every `ring_write`, of any size, returns 0 and
leaves the buffer unchanged, until a read frees a slot. -/
theorem ring_full_scenario :
    (scen1.2 = 7 ∧ scen2.2 = 0 ∧
     ring_available_write scen2.1 = 0 ∧
     scen3.2 = [1, 2, 3, 4] ∧
     ring_available_write scen3.1 = 4 ∧
     scen4.2 = 2) ∧
    (∀ (α : Type) (k : Nat) (rb : WasmAudioRingBuffer α) (data : List α)
       (count : Nat), GoodRing k rb → ring_available_write rb = 0 →
       (ring_write rb data count).2 = 0 ∧ (ring_write rb data count).1 = rb) ∧
    (∀ (α : Type) (k : Nat) (z : α) (data : List α), k ≤ 32 →
       2 ^ k - 1 ≤ data.length →
       ring_available_write
         (ring_write (emptyRing (2 ^ k) z) data (2 ^ k - 1)).1 = 0) :=
  ⟨by decide,
   fun _ k rb data count hg hav => ring_write_full hg data count hav,
   fun _ k z data hk hlen => write_fill_empty k hk z data hlen⟩

/-- Witness for C3's general parts: the full capacity-8 state `scen2.1`
rejects a further write unchanged, and writing 7 samples fills the empty
capacity-8 buffer. -/
theorem ring_full_scenario_witness :
    (GoodRing 3 scen2.1 ∧ ring_available_write scen2.1 = 0 ∧
     (ring_write scen2.1 [5] 1).2 = 0 ∧ (ring_write scen2.1 [5] 1).1 = scen2.1) ∧
    (3 ≤ 32 ∧ 2 ^ 3 - 1 ≤ ([1, 2, 3, 4, 5, 6, 7] : List Int).length ∧
     ring_available_write
       (ring_write (emptyRing (2 ^ 3) (0 : Int)) [1, 2, 3, 4, 5, 6, 7]
         (2 ^ 3 - 1)).1 = 0) :=
  ⟨⟨⟨by decide, by decide, by decide, by decide⟩, by decide,
    ring_full_scenario.2.1 Int 3 scen2.1 [5] 1
      ⟨by decide, by decide, by decide, by decide⟩ (by decide)⟩,
   by decide, by decide,
   ring_full_scenario.2.2 Int 3 (0 : Int) [1, 2, 3, 4, 5, 6, 7]
     (by decide) (by decide)⟩

/-- C4.  Contract of a single `ring_write` call: exactly
`min count free-space` leading elements of `data` end up appended to the live
contents (the implementation splits the copy in two when it wraps past the
end of the backing array), the write cursor advances by that count masked by
`size - 1`, and that count is returned; `ring_read` is the exact mirror on
the consumer side. -/
theorem ring_write_read_contract {α : Type} (k : Nat)
    {rb : WasmAudioRingBuffer α} (h : GoodRing k rb) (data : List α)
    (count : Nat) (hlen : count ≤ data.length) (rcount : Nat) :
    (ring_write rb data count).2 = min count (ring_available_write rb) ∧
    ringContents (ring_write rb data count).1 =
      ringContents rb ++ data.take (min count (ring_available_write rb)) ∧
    (ring_write rb data count).1.write_pos =
      (rb.write_pos + min count (ring_available_write rb)) &&& (rb.size - 1) ∧
    (ring_write rb data count).1.read_pos = rb.read_pos ∧
    (ring_read rb rcount).2 =
      (ringContents rb).take (min rcount (ring_available_read rb)) ∧
    ringContents (ring_read rb rcount).1 =
      (ringContents rb).drop (min rcount (ring_available_read rb)) ∧
    (ring_read rb rcount).1.read_pos =
      (rb.read_pos + min rcount (ring_available_read rb)) &&& (rb.size - 1) ∧
    (ring_read rb rcount).1.write_pos = rb.write_pos := by
  refine ⟨ring_write_count rb data count,
    ring_write_contents h data count hlen, ?_,
    ring_write_read_pos rb data count,
    ring_read_out_spec h rcount,
    ring_read_contents h rcount, ?_,
    ring_read_write_pos rb rcount⟩
  · rw [ring_write_write_pos h, h.2.1, Nat.and_pow_two_sub_one_eq_mod]
  · rw [ring_read_read_pos h, h.2.1, Nat.and_pow_two_sub_one_eq_mod]

/-- Witness for C4 at a concrete wrapping state: `scen3.1` has capacity 8,
`read_pos = 4`, `write_pos = 7`, so a write of 3 samples wraps. -/
theorem ring_write_read_contract_witness :
    GoodRing 3 scen3.1 ∧ (3 : Nat) ≤ ([10, 11, 12] : List Int).length ∧
    ((ring_write scen3.1 [10, 11, 12] 3).2 =
      min 3 (ring_available_write scen3.1) ∧
    ringContents (ring_write scen3.1 [10, 11, 12] 3).1 =
      ringContents scen3.1 ++
        ([10, 11, 12] : List Int).take (min 3 (ring_available_write scen3.1)) ∧
    (ring_write scen3.1 [10, 11, 12] 3).1.write_pos =
      (scen3.1.write_pos + min 3 (ring_available_write scen3.1)) &&&
        (scen3.1.size - 1) ∧
    (ring_write scen3.1 [10, 11, 12] 3).1.read_pos = scen3.1.read_pos ∧
    (ring_read scen3.1 2).2 =
      (ringContents scen3.1).take (min 2 (ring_available_read scen3.1)) ∧
    ringContents (ring_read scen3.1 2).1 =
      (ringContents scen3.1).drop (min 2 (ring_available_read scen3.1)) ∧
    (ring_read scen3.1 2).1.read_pos =
      (scen3.1.read_pos + min 2 (ring_available_read scen3.1)) &&&
        (scen3.1.size - 1) ∧
    (ring_read scen3.1 2).1.write_pos = scen3.1.write_pos) :=
  ⟨⟨by decide, by decide, by decide, by decide⟩, by decide,
   ring_write_read_contract 3 ⟨by decide, by decide, by decide, by decide⟩
     [10, 11, 12] 3 (by decide) 2⟩

/-! ## Global audio state (`WasmAudioGlobalState`) and the public API

Samples and gains are C `float`s used only through `*`, `+` and `/ 2`; they
are modelled as exact rationals here.  `wasm_audio_state` is a global pointer
that is `NULL` until `wasm_audio_init` succeeds; the API functions therefore
take an `Option WasmAudioGlobalState`. -/

/-- `WasmAudioState` from `include/ui/wasm-audio.h`. -/
inductive WasmAudioState where
  | closed
  | suspended
  | running
  | interrupted
deriving DecidableEq

/-- The fields of `WasmAudioInfo` used by the embedded functions. -/
structure WasmAudioInfo where
  state : WasmAudioState
  samples_played : Nat
  samples_captured : Nat
  underruns : Nat

/-- The fields of `WasmAudioConfig` used by the embedded functions. -/
structure WasmAudioConfig where
  sample_rate : Nat
  channels : Nat
  buffer_size : Nat

/-- `struct WasmAudioGlobalState`.  The extra field `js_gain` models the
browser-side `window._wasmAudio.gainNode.gain.value`, which only the
`js_audio_set_volume` helper (an `EM_JS` body in this file) writes. -/
structure WasmAudioGlobalState where
  config : WasmAudioConfig
  output_ring : WasmAudioRingBuffer ℚ
  input_ring : WasmAudioRingBuffer ℚ
  volume_left : ℚ
  volume_right : ℚ
  muted : Bool
  input_gain : ℚ
  interrupted : Bool
  autoplay_blocked : Bool
  info : WasmAudioInfo
  js_gain : ℚ

/-- `js_audio_set_volume(left, right)`: the EM_JS helper sets the gain node
to the average of the two channel volumes. -/
def js_audio_set_volume (s : WasmAudioGlobalState) (left right : ℚ) :
    WasmAudioGlobalState :=
  { s with js_gain := (left + right) / 2 }

/-- `wasm_audio_write(data, samples)`: `NULL` state or `NULL` data returns 0;
otherwise write `samples * channels` floats into the output ring, add the
written frame count to `samples_played`, and return it. -/
def wasm_audio_write (st : Option WasmAudioGlobalState)
    (data : Option (List ℚ)) (samples : Nat) :
    Nat × Option WasmAudioGlobalState :=
  match st, data with
  | none, _ => (0, none)
  | some s, none => (0, some s)
  | some s, some fdata =>
      let res := ring_write s.output_ring fdata (samples * s.config.channels)
      (res.2 / s.config.channels,
       some { s with
                output_ring := res.1,
                info := { s.info with samples_played :=
                  s.info.samples_played + res.2 / s.config.channels } })

/-- `wasm_audio_read(data, samples)`: `NULL` state returns 0; otherwise read
up to `samples` floats from the input ring.  The C function fills the
caller's (non-`NULL`) array and returns the count; the embedding returns the
samples read out. -/
def wasm_audio_read (st : Option WasmAudioGlobalState) (samples : Nat) :
    List ℚ × Option WasmAudioGlobalState :=
  match st with
  | none => ([], none)
  | some s =>
      let res := ring_read s.input_ring samples
      (res.2, some { s with input_ring := res.1 })

/-- `wasm_audio_get_free`. -/
def wasm_audio_get_free (st : Option WasmAudioGlobalState) : Nat :=
  match st with
  | none => 0
  | some s => ring_available_write s.output_ring / s.config.channels

/-- `wasm_audio_get_available`. -/
def wasm_audio_get_available (st : Option WasmAudioGlobalState) : Nat :=
  match st with
  | none => 0
  | some s => ring_available_read s.input_ring

/-- `wasm_audio_set_volume(left, right)`: store the channel volumes; forward
them to the browser gain node only when not muted. -/
def wasm_audio_set_volume (st : Option WasmAudioGlobalState) (left right : ℚ) :
    Option WasmAudioGlobalState :=
  match st with
  | none => none
  | some s =>
      let s1 := { s with volume_left := left, volume_right := right }
      if !s1.muted then some (js_audio_set_volume s1 left right)
      else some s1

/-- `wasm_audio_set_mute(mute)`: store the flag; set the browser gain node to
0 when muting, and back to the stored channel volumes when unmuting. -/
def wasm_audio_set_mute (st : Option WasmAudioGlobalState) (mute : Bool) :
    Option WasmAudioGlobalState :=
  match st with
  | none => none
  | some s =>
      let s1 := { s with muted := mute }
      if mute then some (js_audio_set_volume s1 0 0)
      else some (js_audio_set_volume s1 s1.volume_left s1.volume_right)

/-- `wasm_audio_set_input_gain(gain)`. -/
def wasm_audio_set_input_gain (st : Option WasmAudioGlobalState) (gain : ℚ) :
    Option WasmAudioGlobalState :=
  match st with
  | none => none
  | some s => some { s with input_gain := gain }

/-- `wasm_audio_handle_interruption(began)`: record the interruption flag and
move the session state to `INTERRUPTED` (begin) or `SUSPENDED` (end). -/
def wasm_audio_handle_interruption (st : Option WasmAudioGlobalState)
    (began : Bool) : Option WasmAudioGlobalState :=
  match st with
  | none => none
  | some s =>
      some { s with
               interrupted := began,
               info := { s.info with state :=
                 if began then WasmAudioState.interrupted
                 else WasmAudioState.suspended } }

/-- `wasm_audio_is_interrupted`. -/
def wasm_audio_is_interrupted (st : Option WasmAudioGlobalState) : Bool :=
  match st with
  | none => false
  | some s => s.interrupted

/-- `wasm_audio_get_info`: `NULL` when uninitialized, otherwise the info
record.  (Under `__EMSCRIPTEN__` the C function first refreshes `info.state`
from the browser context; that browser-side read is not modelled.) -/
def wasm_audio_get_info (st : Option WasmAudioGlobalState) :
    Option WasmAudioInfo :=
  match st with
  | none => none
  | some s => some s.info

/-- `wasm_audio_fill_buffer(samples)`: called from the render callback;
counts an underrun when fewer than `samples * channels` samples are live. -/
def wasm_audio_fill_buffer (st : Option WasmAudioGlobalState) (samples : Nat) :
    Option WasmAudioGlobalState :=
  match st with
  | none => none
  | some s =>
      if ring_available_read s.output_ring < samples * s.config.channels then
        some { s with info := { s.info with underruns := s.info.underruns + 1 } }
      else some s

/-- Modelled from the spec (§6 `pull_output`, §2 HostBridge): the samples the
host render callback observes.  The ScriptProcessor `onaudioprocess` handler
(an EM_JS body in this file) reads `samples * channels` interleaved floats
from the start of the output ring storage exposed by
`wasm_audio_get_output_buffer`, and the Web Audio `GainNode` it feeds scales
every sample by the gain value last written by `js_audio_set_volume`. -/
def pull_output (s : WasmAudioGlobalState) (samples : Nat) : List ℚ :=
  (List.range (samples * s.config.channels)).map
    (fun i => s.output_ring.buffer i * s.js_gain)

/-- C7.  From any initialized state, calling
`wasm_audio_handle_interruption(true)` twice in a row yields exactly the
state a single call yields — session state `Interrupted`, interruption flag
set — and in general re-applying the same interruption transition is a
no-op, not an error (also from the uninitialized state). -/
theorem interruption_idempotent :
    (∀ s : WasmAudioGlobalState,
      wasm_audio_handle_interruption
          (wasm_audio_handle_interruption (some s) true) true =
        wasm_audio_handle_interruption (some s) true ∧
      ∃ s1, wasm_audio_handle_interruption (some s) true = some s1 ∧
        s1.info.state = WasmAudioState.interrupted ∧ s1.interrupted = true) ∧
    ∀ (st : Option WasmAudioGlobalState) (began : Bool),
      wasm_audio_handle_interruption
          (wasm_audio_handle_interruption st began) began =
        wasm_audio_handle_interruption st began := by
  refine ⟨fun s => ⟨rfl, ⟨_, rfl, rfl, rfl⟩⟩, fun st began => ?_⟩
  cases st with
  | none => rfl
  | some s => rfl

theorem set_volume_some (s : WasmAudioGlobalState) (l r : ℚ) :
    wasm_audio_set_volume (some s) l r =
      some { s with
               volume_left := l, volume_right := r,
               js_gain := if s.muted then s.js_gain else (l + r) / 2 } := by
  rw [wasm_audio_set_volume]
  cases hm : s.muted <;> simp [js_audio_set_volume, hm]

theorem set_mute_some (s : WasmAudioGlobalState) (m : Bool) :
    wasm_audio_set_mute (some s) m =
      some { s with
               muted := m,
               js_gain := if m then ((0 : ℚ) + 0) / 2
                 else (s.volume_left + s.volume_right) / 2 } := by
  cases m <;> rfl

/-- With the gain node at 0, the render callback observes only zeros. -/
theorem pull_output_muted (s : WasmAudioGlobalState) (m : Nat)
    (h : s.js_gain = 0) :
    pull_output s m = List.replicate (m * s.config.channels) 0 := by
  apply List.ext_getElem
  · simp [pull_output]
  · intro i h1 h2
    simp only [pull_output, List.getElem_map, List.getElem_range,
      List.getElem_replicate, h, mul_zero]

/-- C9.  After `set_mute(true)`, a `wasm_audio_write` of arbitrary (in
particular non-zero) samples results in the host render callback
(`pull_output`) observing all-zero samples; a `set_volume` issued while
muted keeps the output silent; and a subsequent `set_mute(false)` puts the
most recently stored volume back in effect on the gain node without another
`set_volume` call. -/
theorem mute_scenario (s : WasmAudioGlobalState) (l r l2 r2 : ℚ)
    (data : List ℚ) (n m : Nat) :
    ∃ s3 s4 s5 : WasmAudioGlobalState,
      (wasm_audio_write
          (wasm_audio_set_mute (wasm_audio_set_volume (some s) l r) true)
          (some data) n).2 = some s3 ∧
      pull_output s3 m = List.replicate (m * s3.config.channels) 0 ∧
      wasm_audio_set_volume (some s3) l2 r2 = some s4 ∧
      pull_output s4 m = List.replicate (m * s4.config.channels) 0 ∧
      wasm_audio_set_mute (some s4) false = some s5 ∧
      s5.volume_left = l2 ∧ s5.volume_right = r2 ∧
      s5.js_gain = (l2 + r2) / 2 ∧ s5.muted = false := by
  rw [set_volume_some, set_mute_some]
  refine ⟨_, _, _, rfl, ?_, set_volume_some _ l2 r2, ?_, set_mute_some _ false,
    rfl, rfl, ?_, rfl⟩
  · exact pull_output_muted _ m (by show ((0 : ℚ) + 0) / 2 = 0; norm_num)
  · exact pull_output_muted _ m (by show ((0 : ℚ) + 0) / 2 = 0; norm_num)
  · rfl

/-- C10.  Every public audio operation invoked while the global audio state
is still `NULL` (before `wasm_audio_init` succeeds) returns a neutral value
(`0`, `false`, the empty read, or `NULL`) and leaves the state `NULL`. -/
theorem uninitialized_api_neutral :
    (∀ data samples, wasm_audio_write none data samples = (0, none)) ∧
    (∀ samples, wasm_audio_read none samples = ([], none)) ∧
    wasm_audio_get_free none = 0 ∧
    wasm_audio_get_available none = 0 ∧
    (∀ l r, wasm_audio_set_volume none l r = none) ∧
    (∀ m, wasm_audio_set_mute none m = none) ∧
    (∀ g, wasm_audio_set_input_gain none g = none) ∧
    (∀ b, wasm_audio_handle_interruption none b = none) ∧
    wasm_audio_is_interrupted none = false ∧
    wasm_audio_get_info none = none :=
  ⟨fun _ _ => rfl, fun _ => rfl, rfl, rfl, fun _ _ => rfl, fun _ => rfl,
   fun _ => rfl, fun _ => rfl, rfl, rfl⟩

/-! ## Session resume and autoplay gating (`js_audio_resume`) -/

/-- `AudioContext.state` values seen by the EM_JS helpers. -/
inductive JsCtxState where
  | closed
  | suspended
  | running
deriving DecidableEq

/-- The `window._wasmAudio` fields used by `js_audio_resume`. -/
structure JsAudio where
  ctxState : JsCtxState
  suspendedFlag : Bool

/-- `js_audio_resume()` (EM_JS body in `wasmaudio.c`): returns `-1` when
`window._wasmAudio` (or its context) is missing; otherwise, when the context
is `suspended`, it calls `ctx.resume()` and returns `0` immediately in every
case.  Modelled from the spec (autoplay gating, §4.6): the browser resolves
the `resume()` promise — the context becomes `running` and the `.then`
handler clears the suspended flag — iff autoplay is allowed (a qualifying
user gesture has occurred); otherwise the promise is rejected, the `.catch`
handler only logs, and the context stays `suspended`.  `autoplayAllowed` is
that browser decision; the embedding returns the settled outcome. -/
def js_audio_resume (st : Option JsAudio) (autoplayAllowed : Bool) :
    Int × Option JsAudio :=
  match st with
  | none => (-1, none)
  | some s =>
      if s.ctxState = JsCtxState.suspended then
        if autoplayAllowed then
          (0, some { s with ctxState := JsCtxState.running,
                            suspendedFlag := false })
        else (0, some s)
      else (0, some s)

/-- `wasm_audio_resume()`: under `__EMSCRIPTEN__` it forwards to
`js_audio_resume`. -/
def wasm_audio_resume (st : Option JsAudio) (autoplayAllowed : Bool) :
    Int × Option JsAudio :=
  js_audio_resume st autoplayAllowed

/-- Counterexample to C8 as stated: a resume attempted while autoplay is
disallowed does *not* return a distinguished `AutoplayBlocked` failure — it
returns `0`, the very same value a permitted, successful resume returns
(the only failure return, `-1`, is reserved for the uninitialized state). -/
theorem resume_no_autoplay_failure :
    (wasm_audio_resume (some ⟨JsCtxState.suspended, true⟩) false).1 = 0 ∧
    (wasm_audio_resume (some ⟨JsCtxState.suspended, true⟩) false).1 =
      (wasm_audio_resume (some ⟨JsCtxState.suspended, true⟩) true).1 ∧
    ¬ (wasm_audio_resume (some ⟨JsCtxState.suspended, true⟩) false).1 < 0 :=
  ⟨rfl, rfl, by decide⟩

/-- C8 (amended).  A resume attempted while autoplay is disallowed returns
`0` — the same success code as a permitted resume, so no `AutoplayBlocked`
failure is reported (`-1` is returned only when uninitialized) — and leaves
the context state unchanged at `suspended`; the call is safely retryable,
and a resume after a qualifying user gesture returns `0` and transitions the
context to `running`. -/
theorem resume_autoplay_blocked (s : JsAudio)
    (h : s.ctxState = JsCtxState.suspended) :
    wasm_audio_resume (some s) false = (0, some s) ∧
    wasm_audio_resume (some s) true =
      (0, some { s with ctxState := JsCtxState.running,
                        suspendedFlag := false }) ∧
    (∀ b, wasm_audio_resume none b = (-1, none)) := by
  refine ⟨?_, ?_, fun _ => rfl⟩ <;>
    simp [wasm_audio_resume, js_audio_resume, h]

/-- Witness for C8 (amended) at the concrete suspended, autoplay-blocked
context. -/
theorem resume_autoplay_blocked_witness :
    (⟨JsCtxState.suspended, true⟩ : JsAudio).ctxState = JsCtxState.suspended ∧
    (wasm_audio_resume (some ⟨JsCtxState.suspended, true⟩) false =
        (0, some ⟨JsCtxState.suspended, true⟩) ∧
      wasm_audio_resume (some ⟨JsCtxState.suspended, true⟩) true =
        (0, some ⟨JsCtxState.running, false⟩) ∧
      (∀ b, wasm_audio_resume none b = (-1, none))) :=
  ⟨rfl, resume_autoplay_blocked ⟨JsCtxState.suspended, true⟩ rfl⟩

/-! ## Sample-format conversion (`wasm_write` / `wasm_read`)

A model of the C `float` values flowing through the conversions: NaN, signed
infinities, or a finite value carried as an exact rational.  The conversions
use only comparisons (IEEE semantics: every comparison involving NaN is
false), one multiplication, and a float→int cast.  `x / 32768.0f` on a
16-bit integer is exact in `float`; the finite multiplications are modelled
exactly (real `float` rounding stays well within the ±1-LSB slack of the
properties proved below). -/

inductive WFloat where
  | nan
  | inf (neg : Bool)
  | fin (q : ℚ)
deriving DecidableEq

/-- IEEE `>` on the modelled floats: false whenever NaN is involved. -/
def wgt : WFloat → WFloat → Bool
  | .nan, _ => false
  | _, .nan => false
  | .inf false, .inf false => false
  | .inf false, _ => true
  | .inf true, _ => false
  | .fin _, .inf false => false
  | .fin _, .inf true => true
  | .fin a, .fin b => decide (b < a)

/-- IEEE `<`: the mirror of `>`. -/
def wlt (a b : WFloat) : Bool := wgt b a

/-- IEEE multiplication on the modelled floats (finite products exact). -/
def wmul : WFloat → WFloat → WFloat
  | .nan, _ => .nan
  | _, .nan => .nan
  | .inf s, .inf t => .inf (xor s t)
  | .inf s, .fin q =>
      if q = 0 then .nan else if q < 0 then .inf (!s) else .inf s
  | .fin q, .inf s =>
      if q = 0 then .nan else if q < 0 then .inf (!s) else .inf s
  | .fin a, .fin b => .fin (a * b)

/-- Truncation toward zero of a rational, as the float→int conversion does. -/
def truncRat (q : ℚ) : Int := if 0 ≤ q then ⌊q⌋ else ⌈q⌉

/-- `i32.trunc_sat_f32_s`: the saturating float→i32 conversion
clang/emscripten emits for the C cast on the wasm target (the plain C
float→integer conversion is undefined for NaN and out-of-range values):
NaN ↦ 0; saturation at the `int32_t` bounds. -/
def i32_trunc_sat (v : WFloat) : Int :=
  match v with
  | .nan => 0
  | .inf false => 2147483647
  | .inf true => -2147483648
  | .fin q => max (-2147483648) (min 2147483647 (truncRat q))

/-- The implicit conversion of the i32 result to `int16_t` (wrap mod `2^16`). -/
def toInt16 (v : Int) : Int := (v + 32768) % 65536 - 32768

/-- `i16_to_f32` (spec §4.2): the output-path conversion in `wasm_write`,
`src[i] / 32768.0f`. -/
def i16_to_f32 (x : Int) : WFloat := .fin ((x : ℚ) / 32768)

/-- `f32_to_i16` (spec §4.2): the input-path per-sample conversion in
`wasm_read`: `sample = v * input_gain; if (sample > 1.0f) sample = 1.0f;
if (sample < -1.0f) sample = -1.0f; dst[i] = (int16_t)(sample * 32767.0f)`. -/
def f32_to_i16 (v input_gain : WFloat) : Int :=
  let sample0 := wmul v input_gain
  let sample1 := if wgt sample0 (.fin 1) then WFloat.fin 1 else sample0
  let sample2 := if wlt sample1 (.fin (-1)) then WFloat.fin (-1) else sample1
  toInt16 (i32_trunc_sat (wmul sample2 (.fin 32767)))

theorem truncRat_le {q : ℚ} {n : Int} (h : q ≤ (n : ℚ)) : truncRat q ≤ n := by
  rw [truncRat]
  split
  · exact le_trans (Int.floor_le_floor h) (le_of_eq (Int.floor_intCast n))
  · exact Int.ceil_le.2 h

theorem le_truncRat {q : ℚ} {n : Int} (h : (n : ℚ) ≤ q) : n ≤ truncRat q := by
  rw [truncRat]
  split
  · exact Int.le_floor.2 h
  · exact le_trans (le_of_eq (Int.ceil_intCast n).symm) (Int.ceil_le_ceil h)

/-- Saturation and the 16-bit wrap are the identity on in-range values. -/
theorem toInt16_sat_id {t : Int} (h1 : -32768 ≤ t) (h2 : t ≤ 32767) :
    toInt16 (max (-2147483648) (min 2147483647 t)) = t := by
  rw [toInt16]
  omega

/-- After the two clamping branches the sample is either NaN or a finite
value in `[-1, 1]`. -/
theorem clamp_cases (s0 : WFloat) :
    (if wlt (if wgt s0 (.fin 1) then WFloat.fin 1 else s0) (.fin (-1)) then
        WFloat.fin (-1)
      else if wgt s0 (.fin 1) then WFloat.fin 1 else s0) = WFloat.nan ∨
    ∃ q : ℚ,
      (if wlt (if wgt s0 (.fin 1) then WFloat.fin 1 else s0) (.fin (-1)) then
          WFloat.fin (-1)
        else if wgt s0 (.fin 1) then WFloat.fin 1 else s0) = WFloat.fin q ∧
      -1 ≤ q ∧ q ≤ 1 := by
  cases s0 with
  | nan => left; rfl
  | inf neg =>
    right
    cases neg with
    | false => exact ⟨1, rfl, by norm_num, le_rfl⟩
    | true => exact ⟨-1, rfl, le_rfl, by norm_num⟩
  | fin q =>
    right
    by_cases hq1 : (1 : ℚ) < q
    · have hg : wgt (WFloat.fin q) (WFloat.fin 1) = true := by
        simp only [wgt, decide_eq_true_eq]; exact hq1
      have hl : ¬ wlt (WFloat.fin 1) (WFloat.fin (-1)) = true := by
        simp only [wlt, wgt, decide_eq_true_eq]; norm_num
      refine ⟨1, ?_, by norm_num, le_rfl⟩
      rw [if_pos hg, if_neg hl]
    · have hg : ¬ wgt (WFloat.fin q) (WFloat.fin 1) = true := by
        simp only [wgt, decide_eq_true_eq]; exact hq1
      rw [if_neg hg]
      by_cases hq2 : q < -1
      · have hl : wlt (WFloat.fin q) (WFloat.fin (-1)) = true := by
          simp only [wlt, wgt, decide_eq_true_eq]; exact hq2
        exact ⟨-1, by rw [if_pos hl], le_rfl, by norm_num⟩
      · have hl : ¬ wlt (WFloat.fin q) (WFloat.fin (-1)) = true := by
          simp only [wlt, wgt, decide_eq_true_eq]; exact hq2
        exact ⟨q, by rw [if_neg hl], not_lt.1 hq2, not_lt.1 hq1⟩

/-- For every float input (NaN and infinities included) and every gain, the
converted sample is a well-defined `int16_t` in `[-32767, 32767]`. -/
theorem f32_to_i16_range (v g : WFloat) :
    -32767 ≤ f32_to_i16 v g ∧ f32_to_i16 v g ≤ 32767 := by
  simp only [f32_to_i16]
  rcases clamp_cases (wmul v g) with hnan | ⟨q, hq, hq1, hq2⟩
  · rw [hnan]
    simp only [wmul, i32_trunc_sat, toInt16]
    norm_num
  · rw [hq]
    simp only [wmul, i32_trunc_sat]
    have ht1 : truncRat (q * 32767) ≤ 32767 :=
      truncRat_le (by push_cast; nlinarith)
    have ht2 : (-32767 : Int) ≤ truncRat (q * 32767) :=
      le_truncRat (by push_cast; nlinarith)
    rw [toInt16]
    omega

/-- NaN converts to 0 (clamping lets it through, the saturating cast maps
it to 0), whatever the gain. -/
theorem f32_to_i16_nan (g : WFloat) : f32_to_i16 WFloat.nan g = 0 := by
  cases g <;> rfl

/-- `+∞` is caught by the `> 1.0f` clamp and converts to `32767`, not 0. -/
theorem f32_to_i16_posinf : f32_to_i16 (WFloat.inf false) (.fin 1) = 32767 := by
  have h0 : wmul (WFloat.inf false) (.fin 1) = WFloat.inf false := by
    simp only [wmul]
    norm_num
  have hg : wgt (WFloat.inf false) (WFloat.fin 1) = true := rfl
  have hl : ¬ wlt (WFloat.fin 1) (WFloat.fin (-1)) = true := by
    simp only [wlt, wgt, decide_eq_true_eq]; norm_num
  simp only [f32_to_i16, h0]
  rw [if_pos hg, if_neg hl]
  simp only [wmul, one_mul, i32_trunc_sat, truncRat, toInt16]
  norm_num

/-- `-∞` is caught by the `< -1.0f` clamp and converts to `-32767`, not 0. -/
theorem f32_to_i16_neginf : f32_to_i16 (WFloat.inf true) (.fin 1) = -32767 := by
  have h0 : wmul (WFloat.inf true) (.fin 1) = WFloat.inf true := by
    simp only [wmul]
    norm_num
  have hg : ¬ wgt (WFloat.inf true) (WFloat.fin 1) = true := by decide
  have hl : wlt (WFloat.inf true) (WFloat.fin (-1)) = true := rfl
  simp only [f32_to_i16, h0]
  rw [if_neg hg, if_pos hl]
  simp only [wmul, i32_trunc_sat, truncRat, toInt16]
  rw [if_neg (by norm_num : ¬ (0 : ℚ) ≤ -1 * 32767)]
  have hc : ⌈(-1 * 32767 : ℚ)⌉ = -32767 := by norm_num [Int.ceil_neg]
  rw [hc]
  omega

/-- Counterexample to C6 as stated: the claim says NaN *and* infinities map
to 0, but `+∞` is caught by the `sample > 1.0f` clamp and converts to
`32767`, not 0. -/
theorem conversion_inf_not_zero :
    f32_to_i16 (WFloat.inf false) (WFloat.fin 1) ≠ 0 := by
  rw [f32_to_i16_posinf]
  decide

/-- C6 (amended).  The float→int16 conversion is total and in range for
every float input, NaN and infinities included: NaN maps to 0, the
infinities are clamped to ±1.0 and so map to ±32767 (not 0), and every
result lies in `[-32767, 32767]`, inside the `int16_t` range; `i16_to_f32`
of `-32768` and of `32767` produce values within `[-1.0, 1.0]`. -/
theorem conversion_totality :
    (∀ v g : WFloat, -32767 ≤ f32_to_i16 v g ∧ f32_to_i16 v g ≤ 32767) ∧
    (∀ g : WFloat, f32_to_i16 WFloat.nan g = 0) ∧
    f32_to_i16 (WFloat.inf false) (WFloat.fin 1) = 32767 ∧
    f32_to_i16 (WFloat.inf true) (WFloat.fin 1) = -32767 ∧
    (∃ qlo : ℚ, i16_to_f32 (-32768) = WFloat.fin qlo ∧ -1 ≤ qlo ∧ qlo ≤ 1) ∧
    (∃ qhi : ℚ, i16_to_f32 32767 = WFloat.fin qhi ∧ -1 ≤ qhi ∧ qhi ≤ 1) := by
  refine ⟨f32_to_i16_range, f32_to_i16_nan, f32_to_i16_posinf,
    f32_to_i16_neginf, ?_, ?_⟩
  · refine ⟨-1, ?_, le_rfl, by norm_num⟩
    simp only [i16_to_f32, WFloat.fin.injEq]
    norm_num
  · refine ⟨32767 / 32768, ?_, by norm_num, by norm_num⟩
    simp only [i16_to_f32, WFloat.fin.injEq]
    norm_num

/-- C5.  Round trip: converting an `int16` sample to float on the output
path (`x / 32768.0f` in `wasm_write`) and back to `int16` on the input path
(gain 1.0, clamp, scale by `32767.0f`, float→int cast in `wasm_read`)
reproduces `x` to within ±1 least-significant bit for every
`x ∈ [-32768, 32767]`. -/
theorem roundtrip_lsb (x : Int) (h1 : -32768 ≤ x) (h2 : x ≤ 32767) :
    |f32_to_i16 (i16_to_f32 x) (WFloat.fin 1) - x| ≤ 1 := by
  have h325 : (0 : ℚ) < 32768 := by norm_num
  have hx1 : (x : ℚ) ≤ 32767 := by exact_mod_cast h2
  have hx2 : (-32768 : ℚ) ≤ (x : ℚ) := by exact_mod_cast h1
  have heq : (x : ℚ) / 32768 * 1 * 32767 = (x : ℚ) - (x : ℚ) / 32768 := by
    ring
  have hd1 : (x : ℚ) / 32768 ≤ 1 := by
    rw [div_le_one h325]; linarith
  have hd2 : (-1 : ℚ) ≤ (x : ℚ) / 32768 := by
    rw [le_div_iff₀ h325]; linarith
  have hmul : wmul (i16_to_f32 x) (WFloat.fin 1) =
      WFloat.fin ((x : ℚ) / 32768 * 1) := rfl
  have hg : ¬ wgt (WFloat.fin ((x : ℚ) / 32768 * 1)) (WFloat.fin 1) = true := by
    simp only [wgt, decide_eq_true_eq]
    rw [mul_one]
    exact not_lt.2 hd1
  have hl : ¬ wlt (WFloat.fin ((x : ℚ) / 32768 * 1)) (WFloat.fin (-1)) = true := by
    simp only [wlt, wgt, decide_eq_true_eq]
    rw [mul_one]
    exact not_lt.2 hd2
  simp only [f32_to_i16, hmul]
  rw [if_neg hg, if_neg hl]
  simp only [wmul, i32_trunc_sat, toInt16]
  rw [abs_le]
  rcases le_or_lt 0 x with hx0 | hx0
  · have hxq : (0 : ℚ) ≤ (x : ℚ) := by exact_mod_cast hx0
    have hd0 : (0 : ℚ) ≤ (x : ℚ) / 32768 := by
      rw [le_div_iff₀ h325]; linarith
    have htop : truncRat ((x : ℚ) / 32768 * 1 * 32767) ≤ x :=
      truncRat_le (by rw [heq]; linarith)
    have hbot : x - 1 ≤ truncRat ((x : ℚ) / 32768 * 1 * 32767) :=
      le_truncRat (by rw [heq]; push_cast; linarith)
    constructor <;> omega
  · have hxq : (x : ℚ) < 0 := by exact_mod_cast hx0
    have hd0 : (x : ℚ) / 32768 ≤ 0 := by
      rw [div_le_iff₀ h325]; linarith
    have htop : truncRat ((x : ℚ) / 32768 * 1 * 32767) ≤ x + 1 :=
      truncRat_le (by rw [heq]; push_cast; linarith)
    have hbot : x ≤ truncRat ((x : ℚ) / 32768 * 1 * 32767) :=
      le_truncRat (by rw [heq]; linarith)
    constructor <;> omega

/-- Witness for C5 at `x = 1000`. -/
theorem roundtrip_lsb_witness :
    -32768 ≤ (1000 : Int) ∧ (1000 : Int) ≤ 32767 ∧
    |f32_to_i16 (i16_to_f32 1000) (WFloat.fin 1) - 1000| ≤ 1 :=
  ⟨by decide, by decide, roundtrip_lsb 1000 (by decide) (by decide)⟩
